import Mathlib

/-!
Shallow embedding of the dayanandaks4/text-to-audio repository.

Text is modelled as `List Char` (ASCII; Python `str` operations are
translated at the character level).  Audio buffers are modelled as
`List ℚ` (exact arithmetic in place of numpy float32; the square root
used by the RMS-normalisation is kept as an explicit function
parameter, since its value never matters for the claims).

The sections below follow the source files:
  * `src/text_processor.py`  — `TextProcessor`
  * `src/audio_processor.py` — `AudioProcessor`
  * `src/main.py`            — `TextToAudioConverter.convert_text`
  * `examples/qa_system.py`  — `QATextToAudio.find_answer`
-/

set_option autoImplicit false

namespace TextToAudio

/-! ### Character classes (Python `\s`, `string.punctuation`, `\w`, `lower`) -/

/-- Python `\s` on ASCII: space, tab, newline, vertical tab, form feed,
carriage return. -/
def isWS (c : Char) : Bool :=
  c.toNat = 32 || (9 ≤ c.toNat && c.toNat ≤ 13)

/-- The 32 characters of Python `string.punctuation`, by ASCII code
ranges: 33–47, 58–64, 91–96, 123–126. -/
def isPunctCh (c : Char) : Bool :=
  (33 ≤ c.toNat && c.toNat ≤ 47) || (58 ≤ c.toNat && c.toNat ≤ 64) ||
  (91 ≤ c.toNat && c.toNat ≤ 96) || (123 ≤ c.toNat && c.toNat ≤ 126)

/-- Python `\w` on ASCII: letters, digits and underscore. -/
def isWordCh (c : Char) : Bool :=
  (48 ≤ c.toNat && c.toNat ≤ 57) || (65 ≤ c.toNat && c.toNat ≤ 90) ||
  (97 ≤ c.toNat && c.toNat ≤ 122) || c.toNat = 95

/-- ASCII uppercase letter. -/
def isUpperCh (c : Char) : Bool :=
  65 ≤ c.toNat && c.toNat ≤ 90

/-- Python `str.lower` restricted to ASCII. -/
def lowerChar (c : Char) : Char :=
  if 65 ≤ c.toNat && c.toNat ≤ 90 then Char.ofNat (c.toNat + 32) else c

/-! ### Generic string helpers (Python `strip`, `split`, `replace`, `re.sub`) -/

/-- Drop the trailing characters satisfying `p` (Python `rstrip`). -/
def dropTrailing (p : Char → Bool) (l : List Char) : List Char :=
  (l.reverse.dropWhile p).reverse

/-- Python `str.strip()` with a character-class argument: remove leading
and trailing characters satisfying `p`. -/
def stripSet (p : Char → Bool) (l : List Char) : List Char :=
  dropTrailing p (l.dropWhile p)

/-- Python `str.strip()` (whitespace). -/
def stripWS (l : List Char) : List Char :=
  stripSet isWS l

/-- Python `re.sub(r'\s+', ' ', text)`: collapse every maximal run of
whitespace to a single space. -/
def squeeze : List Char → List Char
  | [] => []
  | [c] => [if isWS c then ' ' else c]
  | c :: d :: rest =>
    if isWS c && isWS d then squeeze (d :: rest)
    else (if isWS c then ' ' else c) :: squeeze (d :: rest)

/-- Python `str.split()` (no separator): split on whitespace runs and
drop empty pieces.  `acc` holds the current word, reversed. -/
def splitWSAux : List Char → List Char → List (List Char)
  | [], acc => if acc.isEmpty then [] else [acc.reverse]
  | c :: rest, acc =>
    if isWS c then
      if acc.isEmpty then splitWSAux rest []
      else acc.reverse :: splitWSAux rest []
    else splitWSAux rest (c :: acc)

/-- Python `str.split()`. -/
def splitWS (l : List Char) : List (List Char) :=
  splitWSAux l []

/-- Split on every character satisfying `p`, keeping empty pieces
(Python `re.split` on a single-character class). -/
def splitOnPred (p : Char → Bool) : List Char → List (List Char)
  | [] => [[]]
  | c :: rest =>
    if p c then [] :: splitOnPred p rest
    else
      match splitOnPred p rest with
      | [] => [[c]]
      | piece :: more => (c :: piece) :: more

/-- Python `str.replace(pat, rep)`: replace all non-overlapping
occurrences of `pat`, left to right.  The extra fuel argument makes the
recursion structural; `replaceAll` supplies fuel `s.length`, which is
always enough for the non-empty patterns used by the source. -/
def replaceAllFuel (pat rep : List Char) : Nat → List Char → List Char
  | _, [] => []
  | 0, s => s
  | fuel + 1, c :: cs =>
    if pat ≠ [] && pat.isPrefixOf (c :: cs) then
      rep ++ replaceAllFuel pat rep fuel ((c :: cs).drop pat.length)
    else c :: replaceAllFuel pat rep fuel cs

/-- Python `str.replace(pat, rep)` for the non-empty patterns of the
source. -/
def replaceAll (pat rep s : List Char) : List Char :=
  replaceAllFuel pat rep s.length s

/-- Join a list of words with single spaces (Python `' '.join`). -/
def joinSpace : List (List Char) → List Char
  | [] => []
  | [s] => s
  | s :: rest => s ++ ' ' :: joinSpace rest

/-! ### `TextProcessor` (src/text_processor.py) -/

/-- The abbreviation table `TextProcessor.__init__.self.abbreviations`,
in its insertion order. -/
def abbreviations : List (List Char × List Char) :=
  [("dr.".toList, "doctor".toList),
   ("mr.".toList, "mister".toList),
   ("mrs.".toList, "misses".toList),
   ("ms.".toList, "miss".toList),
   ("prof.".toList, "professor".toList),
   ("st.".toList, "street".toList),
   ("ave.".toList, "avenue".toList),
   ("blvd.".toList, "boulevard".toList),
   ("etc.".toList, "etcetera".toList),
   ("vs.".toList, "versus".toList),
   ("e.g.".toList, "for example".toList),
   ("i.e.".toList, "that is".toList)]

/-- The number table `TextProcessor.__init__.self.numbers`. -/
def numbersTable : List (List Char × List Char) :=
  [("0".toList, "zero".toList), ("1".toList, "one".toList),
   ("2".toList, "two".toList), ("3".toList, "three".toList),
   ("4".toList, "four".toList), ("5".toList, "five".toList),
   ("6".toList, "six".toList), ("7".toList, "seven".toList),
   ("8".toList, "eight".toList), ("9".toList, "nine".toList),
   ("10".toList, "ten".toList), ("11".toList, "eleven".toList),
   ("12".toList, "twelve".toList), ("13".toList, "thirteen".toList),
   ("14".toList, "fourteen".toList), ("15".toList, "fifteen".toList),
   ("16".toList, "sixteen".toList), ("17".toList, "seventeen".toList),
   ("18".toList, "eighteen".toList), ("19".toList, "nineteen".toList),
   ("20".toList, "twenty".toList)]

/-- Association-list lookup (Python `dict` access / `in`), first match. -/
def alistLookup (db : List (List Char × List Char)) (k : List Char) :
    Option (List Char) :=
  match db with
  | [] => none
  | (k0, v0) :: rest => if k = k0 then some v0 else alistLookup rest k

/-- The body of `clean_text`'s number-expansion loop: strip surrounding
punctuation for the lookup and, on a hit, keep the punctuation around
the expanded word (`prefix + self.numbers[clean_word] + suffix`). -/
def expandWord (w : List Char) : List Char :=
  let cleanWord := stripSet isPunctCh w
  match alistLookup numbersTable cleanWord with
  | some num => w.takeWhile isPunctCh ++ num ++ (w.reverse.takeWhile isPunctCh).reverse
  | none => w

/-- The symbol table of `TextProcessor._handle_special_characters`. -/
def specialReplacements : List (List Char × List Char) :=
  [("&".toList, " and ".toList),
   ("@".toList, " at ".toList),
   ("#".toList, " hash ".toList),
   ("$".toList, " dollar ".toList),
   ("%".toList, " percent ".toList),
   ("+".toList, " plus ".toList),
   ("=".toList, " equals ".toList),
   ("<".toList, " less than ".toList),
   (">".toList, " greater than ".toList),
   ("|".toList, " or ".toList)]

/-- Characters kept by the regex `[^\w\s\.,!?\-\']` of
`_handle_special_characters` besides word and whitespace characters:
period, comma, bang, question mark, hyphen, apostrophe. -/
def isKeptPunct (c : Char) : Bool :=
  c = '.' || c = ',' || c = '!' || c = '?' || c = '-' || c.toNat = 39

/-- `TextProcessor._handle_special_characters`: replace the symbols of
the table by words, then turn every remaining character outside
`[\w\s\.,!?\-\']` into a space. -/
def handle_special_characters (t : List Char) : List Char :=
  let t1 := specialReplacements.foldl (fun acc pr => replaceAll pr.1 pr.2 acc) t
  t1.map (fun c => if isWordCh c || isWS c || isKeptPunct c then c else ' ')

/-- Stage of `clean_text`: expand abbreviations by repeated
`str.replace`, in table order. -/
def expandAbbreviations (t : List Char) : List Char :=
  abbreviations.foldl (fun acc pr => replaceAll pr.1 pr.2 acc) t

/-- Stage of `clean_text`: split into whitespace-separated words, expand
basic numbers, join back with single spaces. -/
def expandNumbers (t : List Char) : List Char :=
  joinSpace ((splitWS t).map expandWord)

/-- `TextProcessor.clean_text`: lowercase, collapse whitespace, expand
abbreviations and numbers, handle special characters, final whitespace
collapse and strip. -/
def clean_text (t : List Char) : List Char :=
  if t = [] then []
  else
    stripWS (squeeze (handle_special_characters
      (expandNumbers (expandAbbreviations (squeeze (t.map lowerChar))))))

/-- Sentence-final punctuation of the fallback splitter `[.!?]+`. -/
def isSentPunct (c : Char) : Bool :=
  c = '.' || c = '!' || c = '?'

/-- `TextProcessor.segment_sentences`.  The primary path calls the
external library function `nltk.sent_tokenize`; the function's own
in-repository fallback path (`re.split(r'[.!?]+', text)`, strip, drop
empties) is the code modelled here.  Splitting on runs of `[.!?]` and
splitting on single characters give the same list once empty pieces are
dropped. -/
def segment_sentences (t : List Char) : List (List Char) :=
  ((splitOnPred isSentPunct t).map stripWS).filter (fun s => ¬ s.isEmpty)

/-- The sentence-grouping loop of `TextProcessor.preprocess_for_tts`
(lines 223–235): `current` is the running chunk (`current_chunk`). -/
def chunkAux (maxLength : Nat) : List (List Char) → List Char → List (List Char)
  | [], current => if current.isEmpty then [] else [current]
  | s :: rest, current =>
    if (current ++ ' ' :: s).length ≤ maxLength then
      chunkAux maxLength rest (stripWS (current ++ ' ' :: s))
    else
      if current.isEmpty then chunkAux maxLength rest s
      else current :: chunkAux maxLength rest s

/-- Group sentences into chunks that do not exceed `maxLength`
(the loop of `preprocess_for_tts` started with `current_chunk = ""`). -/
def chunkSentences (sentences : List (List Char)) (maxLength : Nat) :
    List (List Char) :=
  chunkAux maxLength sentences []

/-- `TextProcessor.preprocess_for_tts`: clean, segment into sentences,
group greedily into chunks. -/
def preprocess_for_tts (t : List Char) (maxLength : Nat) : List (List Char) :=
  chunkSentences (segment_sentences (clean_text t)) maxLength

/-- `TextProcessor.validate_text`: reject empty / whitespace-only text
and text shorter than 3 characters after stripping; the over-length
branch (`len(text) > 5000`) only logs a warning. -/
def validate_text (t : List Char) : Bool :=
  if t.isEmpty || (stripWS t).isEmpty then false
  else if (stripWS t).length < 3 then false
  else true

/-! ### `AudioProcessor` (src/audio_processor.py)

Audio buffers are `List ℚ`.  `np.sqrt` is kept as an explicit function
argument `sqrtFn`, and the constant `target_rms = 10 ** (target_level / 20)`
as an argument `targetRms`; the claims about `normalize_audio` hold for
any square-root function that is nonnegative and vanishes exactly at 0. -/

/-- Mean of the squared samples (`np.mean(audio_data ** 2)`), the value
under the square root in `normalize_audio`. -/
def meanSquare (audio : List ℚ) : ℚ :=
  ((audio.map (fun x => x * x)).sum) / (audio.length : ℚ)

/-- Largest absolute sample value (`np.max(np.abs(normalized))`);
`0` for the empty buffer (never used there). -/
def maxAbs (audio : List ℚ) : ℚ :=
  (audio.map (fun x => |x|)).foldr max 0

/-- `AudioProcessor.normalize_audio`: RMS-normalise towards `targetRms`
and rescale by the peak when the result would clip; silent input is
returned unchanged (guard `rms > 0`). -/
def normalize_audio (sqrtFn : ℚ → ℚ) (targetRms : ℚ) (audio : List ℚ) :
    List ℚ :=
  if audio.isEmpty then audio
  else
    let rms := sqrtFn (meanSquare audio)
    if 0 < rms then
      let factor := targetRms / rms
      let normalized := audio.map (fun x => x * factor)
      let maxVal := maxAbs normalized
      if 1 < maxVal then normalized.map (fun x => x / maxVal) else normalized
    else audio

/-- `np.linspace a b n` with endpoint (values `a + i*(b-a)/(n-1)`;
`[a]` for `n = 1`). -/
def linspace (a b : ℚ) (n : Nat) : List ℚ :=
  if n = 0 then []
  else if n = 1 then [a]
  else (List.range n).map
    (fun i : Nat => a + (b - a) * (i : ℚ) / ((n : ℚ) - 1))

/-- The fade-in step of `apply_fade` (lines 207–209): multiply the first
`n` samples elementwise by `np.linspace(0, 1, n)`, only when
`0 < n < len(audio)`. -/
def fadeInApply (l : List ℚ) (n : Nat) : List ℚ :=
  if 0 < n ∧ n < l.length then
    List.zipWith (fun x y => x * y) (l.take n) (linspace 0 1 n) ++ l.drop n
  else l

/-- The fade-out step of `apply_fade` (lines 212–214): multiply the last
`n` samples elementwise by `np.linspace(1, 0, n)`, only when
`0 < n < len(audio)`. -/
def fadeOutApply (l : List ℚ) (n : Nat) : List ℚ :=
  if 0 < n ∧ n < l.length then
    l.take (l.length - n) ++
      List.zipWith (fun x y => x * y) (l.drop (l.length - n)) (linspace 1 0 n)
  else l

/-- `AudioProcessor.apply_fade`: fade lengths in samples
(`int(ms * sample_rate / 1000)`, natural-number parameters); the fade-in
step then the fade-out step (the fade-out guard compares against
`len(audio_copy)`, which the in-place fade-in left unchanged).  The
Python code operates on `audio_data.copy()`; the model is pure. -/
def apply_fade (audio : List ℚ) (fadeInMs fadeOutMs sampleRate : Nat) :
    List ℚ :=
  if audio.isEmpty then audio
  else
    fadeOutApply (fadeInApply audio (fadeInMs * sampleRate / 1000))
      (fadeOutMs * sampleRate / 1000)

/-- Gap length in samples used by `concatenate_audio`
(`int(gap_ms * sample_rate / 1000)`). -/
def gapSamples (gapMs sampleRate : Nat) : Nat :=
  gapMs * sampleRate / 1000

/-- `AudioProcessor.concatenate_audio`: empty list gives an empty
buffer, a single segment is returned as is, otherwise the segments are
folded together with an all-zero gap between consecutive segments. -/
def concatenate_audio (segments : List (List ℚ)) (gapMs sampleRate : Nat) :
    List ℚ :=
  match segments with
  | [] => []
  | [s] => s
  | s :: rest =>
    let gapAudio := List.replicate (gapSamples gapMs sampleRate) (0 : ℚ)
    rest.foldl (fun acc seg => acc ++ gapAudio ++ seg) s

/-! ### `QATextToAudio` (examples/qa_system.py) -/

/-- The default Q&A database of `QATextToAudio.load_qa_database`, in its
insertion order (keys and answers verbatim from the source; apostrophes
written `\x27`). -/
def qa_database : List (List Char × List Char) :=
  [("what is artificial intelligence".toList,
    "Artificial Intelligence, or AI, is the simulation of human intelligence in machines. It includes machine learning, natural language processing, and computer vision to enable computers to perform tasks that typically require human intelligence.".toList),
   ("how does text to speech work".toList,
    "Text-to-speech works by converting written text into spoken words. It uses neural networks to analyze text, understand pronunciation, and generate natural-sounding speech audio using advanced deep learning models.".toList),
   ("what is machine learning".toList,
    "Machine learning is a subset of artificial intelligence that enables computers to learn and make decisions from data without being explicitly programmed. It uses algorithms to identify patterns and make predictions.".toList),
   ("what is python programming".toList,
    "Python is a high-level, interpreted programming language known for its simple syntax and versatility. It\x27s widely used in web development, data science, artificial intelligence, and automation.".toList),
   ("how do neural networks work".toList,
    "Neural networks are computing systems inspired by biological neural networks. They consist of interconnected nodes that process information, learn patterns from data, and make predictions through weighted connections and activation functions.".toList),
   ("what are the benefits of ai".toList,
    "AI benefits include automation of repetitive tasks, improved decision-making through data analysis, enhanced productivity, better healthcare diagnostics, personalized user experiences, and solutions to complex problems.".toList),
   ("what is deep learning".toList,
    "Deep learning is a subset of machine learning that uses artificial neural networks with multiple layers to model and understand complex patterns in data. It\x27s particularly effective for tasks like image recognition and natural language processing.".toList),
   ("how does speech recognition work".toList,
    "Speech recognition converts spoken language into text using acoustic models, language models, and signal processing. It analyzes audio waves, identifies phonemes, and matches them to words using machine learning algorithms.".toList)]

/-- `QATextToAudio.normalize_question`:
`question.lower().strip().rstrip('?')`. -/
def normalize_question (q : List Char) : List Char :=
  dropTrailing (fun c => c = '?') (stripWS (q.map lowerChar))

/-- Python substring containment (`needle in hay`): `needle` occurs as
a contiguous run of `hay`. -/
def containsSub (needle : List Char) : List Char → Bool
  | [] => needle.isEmpty
  | c :: rest => needle.isPrefixOf (c :: rest) || containsSub needle rest

/-- The partial-match loop of `find_answer`: first stored key that
contains the normalised question as a substring or is contained in it. -/
def findPartialMatch (db : List (List Char × List Char)) (q : List Char) :
    Option (List Char) :=
  match db with
  | [] => none
  | (k, a) :: rest =>
    if containsSub q k || containsSub k q then some a
    else findPartialMatch rest q

/-- `QATextToAudio.find_answer`: normalise, exact dictionary hit first,
then substring matching, else `None`. -/
def find_answer (q : List Char) : Option (List Char) :=
  let nq := normalize_question q
  match alistLookup qa_database nq with
  | some a => some a
  | none => findPartialMatch qa_database nq

/-! ### `TextToAudioConverter.convert_text` (src/main.py)

The TTS model (`synthesize_speech`) and the file writer (`save_audio`)
are external effects; they are modelled as oracles in the `Except E`
monad, where a `.error` value stands for a raised exception.
`synthesize_speech` may also return `None` (`Option`) without raising.
All configuration values are the defaults of `self.config`
(`max_text_length = 500`, `concatenate_segments = True`,
`segment_gap_ms = 500`, `apply_fade = True`, `noise_reduction = False`,
fade defaults 50 ms). -/

/-- The synthesis loop of `convert_text` (lines 135–146): call the model
on each chunk in order, keep the non-`None` results, propagate a raised
exception. -/
def synthesizeChunks {E : Type} (synth : List Char → Except E (Option (List ℚ))) :
    List (List Char) → Except E (List (List ℚ))
  | [] => Except.ok []
  | c :: rest =>
    match synth c with
    | Except.error e => Except.error e
    | Except.ok audio =>
      match synthesizeChunks synth rest with
      | Except.error e => Except.error e
      | Except.ok others =>
        match audio with
        | some a => Except.ok (a :: others)
        | none => Except.ok others

/-- The saving step of `convert_text` (lines 173–179): the saved path is
returned; a raised exception propagates to the surrounding `try:`. -/
def saveStep {E : Type} (save : List ℚ → Except E (List Char))
    (audio : List ℚ) : Except E (Option (List Char)) :=
  match save audio with
  | Except.error e => Except.error e
  | Except.ok path => Except.ok (some path)

/-- The body of the `try:` block of `convert_text` (lines 114–182);
`.error` means the block raised. -/
def convertTextBody {E : Type} (synth : List Char → Except E (Option (List ℚ)))
    (save : List ℚ → Except E (List Char)) (sampleRate : Nat)
    (text : List Char) : Except E (Option (List Char)) :=
  if validate_text text = false then Except.ok none
  else
    let chunks := preprocess_for_tts text 500
    if chunks.isEmpty then Except.ok none
    else
      match synthesizeChunks synth chunks with
      | Except.error e => Except.error e
      | Except.ok [] => Except.ok none
      | Except.ok (s :: rest) =>
        let combined :=
          if 1 < (s :: rest).length then concatenate_audio (s :: rest) 500 sampleRate
          else s
        let processed := apply_fade combined 50 50 sampleRate
        saveStep save processed

/-- `TextToAudioConverter.convert_text`: the empty/whitespace check
precedes the `try:` block; any exception raised inside it is caught and
turned into `None`. -/
def convert_text {E : Type} (synth : List Char → Except E (Option (List ℚ)))
    (save : List ℚ → Except E (List Char)) (sampleRate : Nat)
    (text : List Char) : Option (List Char) :=
  if (stripWS text).isEmpty then none
  else
    match convertTextBody synth save sampleRate text with
    | Except.ok r => r
    | Except.error _ => none

/-! ### Lemmas: `dropWhile`, `dropTrailing`, `stripSet` -/

theorem dropWhile_dropWhile (p : Char → Bool) (l : List Char) :
    (l.dropWhile p).dropWhile p = l.dropWhile p := by
  induction l with
  | nil => rfl
  | cons c rest ih =>
    by_cases h : p c
    · simp [List.dropWhile_cons, h, ih]
    · simp [List.dropWhile_cons, h]

theorem dropWhileLenLe (p : Char → Bool) (l : List Char) :
    (l.dropWhile p).length ≤ l.length :=
  List.Sublist.length_le (List.IsSuffix.sublist (List.dropWhile_suffix p))

theorem head_false_of_dropWhile_eq_self (p : Char → Bool) (c : Char)
    (rest : List Char) (h : (c :: rest).dropWhile p = c :: rest) :
    p c = false := by
  cases hp : p c with
  | false => rfl
  | true =>
    exfalso
    have h2 : (c :: rest).dropWhile p = rest.dropWhile p := by
      simp [List.dropWhile_cons, hp]
    have hlen := dropWhileLenLe p rest
    rw [h] at h2
    have hthis := congrArg List.length h2
    simp at hthis
    omega

theorem dropWhile_of_head_false (p : Char → Bool) (c : Char) (l : List Char)
    (h : p c = false) : (c :: l).dropWhile p = c :: l := by
  simp [List.dropWhile_cons, h]

theorem dropTrailing_append_takeWhile (p : Char → Bool) (m : List Char) :
    m = dropTrailing p m ++ (m.reverse.takeWhile p).reverse := by
  conv_lhs => rw [← m.reverse_reverse]
  conv_lhs => rw [← List.takeWhile_append_dropWhile (p := p) (l := m.reverse)]
  rw [List.reverse_append]
  rfl

theorem stripSet_decomp (p : Char → Bool) (l : List Char) :
    l = l.takeWhile p ++ stripSet p l ++
      ((l.dropWhile p).reverse.takeWhile p).reverse := by
  conv_lhs => rw [← List.takeWhile_append_dropWhile (p := p) (l := l)]
  conv_lhs => rw [dropTrailing_append_takeWhile p (l.dropWhile p)]
  rw [List.append_assoc]
  rfl

theorem mem_of_mem_stripSet (p : Char → Bool) (l : List Char) (c : Char)
    (h : c ∈ stripSet p l) : c ∈ l := by
  have hmem : c ∈ l.takeWhile p ++ stripSet p l ++
      ((l.dropWhile p).reverse.takeWhile p).reverse := by
    simp only [List.mem_append]
    exact Or.inl (Or.inr h)
  rwa [← stripSet_decomp p l] at hmem

theorem stripSet_length_le (p : Char → Bool) (l : List Char) :
    (stripSet p l).length ≤ l.length := by
  conv_rhs => rw [stripSet_decomp p l]
  simp only [List.length_append]
  omega

theorem dropTrailing_dropTrailing (p : Char → Bool) (m : List Char) :
    dropTrailing p (dropTrailing p m) = dropTrailing p m := by
  simp only [dropTrailing, List.reverse_reverse]
  rw [dropWhile_dropWhile]

theorem dropWhile_dropTrailing_of_dropWhile_eq_self (p : Char → Bool)
    (m : List Char) (hm : m.dropWhile p = m) :
    (dropTrailing p m).dropWhile p = dropTrailing p m := by
  cases hdt : dropTrailing p m with
  | nil => rfl
  | cons c rest =>
    have hdecomp := dropTrailing_append_takeWhile p m
    rw [hdt] at hdecomp
    have hm' : m.dropWhile p = m := hm
    rw [hdecomp, List.cons_append] at hm'
    have hc : p c = false := head_false_of_dropWhile_eq_self p c _ hm'
    exact dropWhile_of_head_false p c rest hc

theorem stripSet_idem (p : Char → Bool) (l : List Char) :
    stripSet p (stripSet p l) = stripSet p l := by
  show dropTrailing p ((dropTrailing p (l.dropWhile p)).dropWhile p) = _
  rw [dropWhile_dropTrailing_of_dropWhile_eq_self p _ (dropWhile_dropWhile p l)]
  exact dropTrailing_dropTrailing p (l.dropWhile p)

theorem stripWS_idem (l : List Char) : stripWS (stripWS l) = stripWS l :=
  stripSet_idem isWS l

theorem stripWS_length_le (l : List Char) : (stripWS l).length ≤ l.length :=
  stripSet_length_le isWS l

theorem dropWhile_eq_self_of_stripSet_eq_self (p : Char → Bool) (l : List Char)
    (h : stripSet p l = l) : l.dropWhile p = l := by
  have h1 : (stripSet p l).length ≤ (l.dropWhile p).length := by
    show (dropTrailing p (l.dropWhile p)).length ≤ _
    simp only [dropTrailing, List.length_reverse]
    calc (List.dropWhile p (l.dropWhile p).reverse).length
        ≤ (l.dropWhile p).reverse.length := dropWhileLenLe p (l.dropWhile p).reverse
      _ = (l.dropWhile p).length := List.length_reverse _
  have h2 : (l.dropWhile p).length ≤ l.length := dropWhileLenLe p l
  rw [h] at h1
  exact List.IsSuffix.eq_of_length (List.dropWhile_suffix p) (by omega)

theorem rev_dropWhile_eq_self_of_stripSet_eq_self (p : Char → Bool)
    (l : List Char) (h : stripSet p l = l) :
    l.reverse.dropWhile p = l.reverse := by
  have hd : l.dropWhile p = l := dropWhile_eq_self_of_stripSet_eq_self p l h
  have h' : dropTrailing p l = l := by
    have := h
    unfold stripSet at this
    rwa [hd] at this
  have : (l.reverse.dropWhile p).reverse = l := h'
  calc l.reverse.dropWhile p = ((l.reverse.dropWhile p).reverse).reverse := by
        rw [List.reverse_reverse]
    _ = l.reverse := by rw [this]

theorem stripWS_append_space (a b : List Char) (ha : stripWS a = a)
    (ha' : a ≠ []) (hb : stripWS b = b) (hb' : b ≠ []) :
    stripWS (a ++ ' ' :: b) = a ++ ' ' :: b := by
  obtain ⟨c, a', rfl⟩ : ∃ c a', a = c :: a' := by
    cases a with
    | nil => exact absurd rfl ha'
    | cons c a' => exact ⟨c, a', rfl⟩
  have hc : isWS c = false :=
    head_false_of_dropWhile_eq_self isWS c a'
      (dropWhile_eq_self_of_stripSet_eq_self isWS _ ha)
  obtain ⟨d, br, hbr⟩ : ∃ d br, b.reverse = d :: br := by
    cases hbrev : b.reverse with
    | nil => exact absurd (by simpa using congrArg List.reverse hbrev) hb'
    | cons d br => exact ⟨d, br, rfl⟩
  have hbd : b.reverse.dropWhile isWS = b.reverse :=
    rev_dropWhile_eq_self_of_stripSet_eq_self isWS b hb
  have hd : isWS d = false := by
    rw [hbr] at hbd
    exact head_false_of_dropWhile_eq_self isWS d br hbd
  show stripSet isWS ((c :: a') ++ ' ' :: b) = (c :: a') ++ ' ' :: b
  unfold stripSet
  rw [List.cons_append, dropWhile_of_head_false isWS c _ hc]
  unfold dropTrailing
  have hrev : (c :: (a' ++ ' ' :: b)).reverse =
      d :: (br ++ ' ' :: (a'.reverse ++ [c])) := by
    simp [hbr]
  rw [hrev, dropWhile_of_head_false isWS d _ hd, ← hrev, List.reverse_reverse]

theorem stripWS_cons_space (l : List Char) :
    stripWS (' ' :: l) = stripWS l := by
  show stripSet isWS (' ' :: l) = stripSet isWS l
  unfold stripSet
  have hsp : isWS ' ' = true := by decide
  rw [List.dropWhile_cons, if_pos hsp]

theorem stripWS_replicate_space (n : Nat) :
    stripWS (List.replicate n ' ') = [] := by
  have h : List.dropWhile isWS (List.replicate n ' ') = [] := by
    rw [List.dropWhile_eq_nil_iff]
    intro x hx
    rw [List.eq_of_mem_replicate hx]
    decide
  show stripSet isWS _ = []
  unfold stripSet
  rw [h]
  rfl

theorem stripWS_replicate_a (n : Nat) :
    stripWS (List.replicate n 'a') = List.replicate n 'a' := by
  have h : ∀ m : Nat, List.dropWhile isWS (List.replicate m 'a') =
      List.replicate m 'a' := by
    intro m
    cases m with
    | zero => rfl
    | succ k =>
      rw [List.replicate_succ]
      exact dropWhile_of_head_false isWS 'a' _ (by decide)
  show stripSet isWS _ = _
  unfold stripSet
  rw [h n]
  unfold dropTrailing
  rw [List.reverse_replicate, h n, List.reverse_replicate]

/-! ### C10: `validate_text` -/

/-- C10 (amended): `validate_text` returns `False` exactly when the text
is empty, whitespace-only, or shorter than 3 characters after stripping;
in particular it returns `True` for every text longer than 5000
characters whose stripped length is at least 3 (the over-length check
only logs a warning and never rejects). -/
theorem validate_text_spec (t : List Char) :
    (validate_text t = false ↔
      (t = [] ∨ stripWS t = [] ∨ (stripWS t).length < 3)) ∧
    (5000 < t.length → 3 ≤ (stripWS t).length → validate_text t = true) := by
  have h0 : stripWS ([] : List Char) = [] := rfl
  constructor
  · unfold validate_text
    split_ifs with hA hB
    · simp only [List.isEmpty_iff, Bool.or_eq_true] at hA
      simp only [eq_self_iff_true, true_iff]
      rcases hA with hA | hA
      · exact Or.inl hA
      · exact Or.inr (Or.inl hA)
    · simp only [eq_self_iff_true, true_iff]
      exact Or.inr (Or.inr hB)
    · simp only [Bool.or_eq_true, List.isEmpty_iff, not_or] at hA
      constructor
      · intro h; cases h
      · intro h
        rcases h with h | h | h
        · exact absurd h hA.1
        · exact absurd h hA.2
        · exact absurd h hB
  · intro hlen h3
    unfold validate_text
    split_ifs with hA hB
    · exfalso
      simp only [Bool.or_eq_true, List.isEmpty_iff] at hA
      rcases hA with hA | hA
      · rw [hA] at hlen; simp at hlen
      · rw [hA] at h3; simp at h3
    · omega
    · rfl

/-- C10 counterexample: a whitespace-only text of 5001 characters is
longer than 5000 characters, yet `validate_text` returns `False`
(refuting the claim that it returns `True` for every text longer than
5000 characters). -/
theorem validate_text_long_ws_counterexample :
    5000 < (List.replicate 5001 ' ').length ∧
    validate_text (List.replicate 5001 ' ') = false := by
  constructor
  · rw [List.length_replicate]; norm_num
  · unfold validate_text
    rw [if_pos]
    rw [Bool.or_eq_true]
    right
    rw [stripWS_replicate_space]
    rfl

/-- C10 witness: a 5001-character non-whitespace text is accepted. -/
theorem validate_text_spec_witness :
    validate_text (List.replicate 5001 'a') = true := by
  apply (validate_text_spec (List.replicate 5001 'a')).2
  · rw [List.length_replicate]; norm_num
  · rw [stripWS_replicate_a, List.length_replicate]; norm_num

/-! ### C4 and C8: `normalize_audio` -/

theorem sq_sum_nonneg (l : List ℚ) : 0 ≤ (l.map (fun x => x * x)).sum := by
  apply List.sum_nonneg
  intro x hx
  obtain ⟨y, _, rfl⟩ := List.mem_map.mp hx
  exact mul_self_nonneg y

theorem sq_sum_zero_all_zero (l : List ℚ)
    (h : (l.map (fun x => x * x)).sum = 0) : ∀ x ∈ l, x = 0 := by
  induction l with
  | nil => simp
  | cons a l ih =>
    simp only [List.map_cons, List.sum_cons] at h
    have ha : 0 ≤ a * a := mul_self_nonneg a
    have hs : 0 ≤ (l.map (fun x => x * x)).sum := sq_sum_nonneg l
    have ha0 : a * a = 0 := by linarith
    have hl0 : (l.map (fun x => x * x)).sum = 0 := by linarith
    intro x hx
    rcases List.mem_cons.mp hx with rfl | hx'
    · exact mul_self_eq_zero.mp ha0
    · exact ih hl0 x hx'

theorem meanSquare_nonneg (l : List ℚ) : 0 ≤ meanSquare l := by
  unfold meanSquare
  apply div_nonneg (sq_sum_nonneg l)
  exact_mod_cast Nat.zero_le l.length

theorem meanSquare_zero_all_zero (l : List ℚ) (hne : l ≠ [])
    (h : meanSquare l = 0) : ∀ x ∈ l, x = 0 := by
  apply sq_sum_zero_all_zero
  unfold meanSquare at h
  rcases div_eq_zero_iff.mp h with h' | h'
  · exact h'
  · exfalso
    have : l.length = 0 := by exact_mod_cast h'
    exact hne (List.eq_nil_of_length_eq_zero this)

theorem meanSquare_all_zero (l : List ℚ) (h : ∀ x ∈ l, x = 0) :
    meanSquare l = 0 := by
  unfold meanSquare
  have hsum : (l.map (fun x => x * x)).sum = 0 := by
    apply List.sum_eq_zero
    intro x hx
    obtain ⟨y, hy, rfl⟩ := List.mem_map.mp hx
    rw [h y hy]; ring
  rw [hsum, zero_div]

theorem le_maxAbs (l : List ℚ) (x : ℚ) (hx : x ∈ l) : |x| ≤ maxAbs l := by
  induction l with
  | nil => cases hx
  | cons a l ih =>
    have hstep : maxAbs (a :: l) = max |a| (maxAbs l) := rfl
    rcases List.mem_cons.mp hx with rfl | h'
    · rw [hstep]; exact le_max_left _ _
    · rw [hstep]; exact le_trans (ih h') (le_max_right _ _)

theorem clip_bounded (l : List ℚ) (h : 1 < maxAbs l) :
    ∀ y ∈ l.map (fun x => x / maxAbs l), |y| ≤ 1 := by
  intro y hy
  obtain ⟨x, hx, rfl⟩ := List.mem_map.mp hy
  have hm : (0 : ℚ) < maxAbs l := lt_trans one_pos h
  rw [abs_div, abs_of_pos hm]
  exact (div_le_one hm).mpr (le_maxAbs l x hx)

theorem nonclip_bounded (l : List ℚ) (h : ¬ 1 < maxAbs l) :
    ∀ y ∈ l, |y| ≤ 1 := by
  intro y hy
  exact le_trans (le_maxAbs l y hy) (not_lt.mp h)

/-- C4: `normalize_audio` never divides by zero: the empty buffer and
every buffer of RMS zero (in particular all-zero audio) are returned
unchanged, and the result can differ from the input only when the
guard `rms > 0` held. -/
theorem normalize_audio_zero_rms (sqrtFn : ℚ → ℚ) (targetRms : ℚ)
    (audio : List ℚ) (h0 : sqrtFn 0 = 0) (hnn : ∀ x, 0 ≤ sqrtFn x) :
    (audio = [] → normalize_audio sqrtFn targetRms audio = audio) ∧
    (sqrtFn (meanSquare audio) = 0 →
      normalize_audio sqrtFn targetRms audio = audio) ∧
    ((∀ x ∈ audio, x = 0) → normalize_audio sqrtFn targetRms audio = audio) ∧
    (normalize_audio sqrtFn targetRms audio ≠ audio →
      0 < sqrtFn (meanSquare audio)) := by
  have hz : sqrtFn (meanSquare audio) = 0 →
      normalize_audio sqrtFn targetRms audio = audio := by
    intro hzero
    by_cases he : audio.isEmpty
    · simp [normalize_audio, he]
    · simp [normalize_audio, he, hzero]
  refine ⟨?_, hz, ?_, ?_⟩
  · rintro rfl; rfl
  · intro hall
    exact hz (by rw [meanSquare_all_zero audio hall, h0])
  · intro hne
    rcases lt_or_eq_of_le (hnn (meanSquare audio)) with h | h
    · exact h
    · exact absurd (hz h.symm) hne

/-- Square-root stand-in used by the concrete witnesses: nonnegative and
vanishing exactly on nonpositive inputs. -/
def sqrtW : ℚ → ℚ := fun x => if x ≤ 0 then 0 else 1

theorem sqrtW_nonneg : ∀ x : ℚ, 0 ≤ sqrtW x := by
  intro x
  unfold sqrtW
  split <;> norm_num

theorem sqrtW_zero_iff : ∀ x : ℚ, 0 ≤ x → (sqrtW x = 0 ↔ x = 0) := by
  intro x hx
  unfold sqrtW
  constructor
  · intro h
    by_cases hle : x ≤ 0
    · linarith
    · rw [if_neg hle] at h; norm_num at h
  · intro h
    rw [if_pos (le_of_eq h)]

/-- C4 witness: silent two-sample audio is returned unchanged. -/
theorem normalize_audio_zero_rms_witness :
    normalize_audio sqrtW 1 [0, 0] = [0, 0] := by
  apply (normalize_audio_zero_rms sqrtW 1 [0, 0] (by norm_num [sqrtW])
    sqrtW_nonneg).2.2.1
  intro x hx
  simp only [List.mem_cons, List.not_mem_nil, or_false] at hx
  rcases hx with rfl | rfl <;> rfl

/-- C8: every sample returned by `normalize_audio` has absolute value at
most 1: the clipping guard rescales by the peak when needed, and the
untouched cases (empty or all-zero audio) are already within bounds. -/
theorem normalize_audio_bounded (sqrtFn : ℚ → ℚ) (targetRms : ℚ)
    (audio : List ℚ) (hnn : ∀ x, 0 ≤ sqrtFn x)
    (hz : ∀ x, 0 ≤ x → (sqrtFn x = 0 ↔ x = 0)) :
    ∀ y ∈ normalize_audio sqrtFn targetRms audio, |y| ≤ 1 := by
  intro y hy
  simp only [normalize_audio] at hy
  split_ifs at hy with he hpos hclip
  · rw [List.isEmpty_iff.mp he] at hy; cases hy
  · exact clip_bounded _ hclip y hy
  · exact nonclip_bounded _ hclip y hy
  · have hr0 : sqrtFn (meanSquare audio) = 0 :=
      le_antisymm (not_lt.mp hpos) (hnn _)
    have hms : meanSquare audio = 0 :=
      (hz _ (meanSquare_nonneg audio)).mp hr0
    have hne : audio ≠ [] := fun h => he (by rw [h]; rfl)
    rw [meanSquare_zero_all_zero audio hne hms y hy]
    norm_num

/-- C8 witness: a buffer that the RMS scaling pushes past the peak is
rescaled into `[-1, 1]`. -/
theorem normalize_audio_bounded_witness :
    (1 : ℚ) ∈ normalize_audio sqrtW 1 [2, -2] ∧ |(1 : ℚ)| ≤ 1 := by
  have hres : normalize_audio sqrtW 1 [2, -2] = [1, -1] := by
    norm_num [normalize_audio, meanSquare, maxAbs, sqrtW]
  have hmem : (1 : ℚ) ∈ normalize_audio sqrtW 1 [2, -2] := by
    rw [hres]; exact List.mem_cons_self 1 _
  exact ⟨hmem, normalize_audio_bounded sqrtW 1 [2, -2] sqrtW_nonneg
    sqrtW_zero_iff 1 hmem⟩

/-! ### C6: `concatenate_audio` -/

theorem foldl_gap_eq (gap : List ℚ) (rest : List (List ℚ)) :
    ∀ s : List ℚ,
      rest.foldl (fun acc seg => acc ++ gap ++ seg) s =
        s ++ (rest.map (fun seg => gap ++ seg)).flatten := by
  induction rest with
  | nil => intro s; simp
  | cons r rs ih =>
    intro s
    simp only [List.foldl_cons, List.map_cons, List.flatten_cons]
    rw [ih]
    simp [List.append_assoc]

theorem intercalate_eq_flatten (sep : List ℚ) (x : List ℚ)
    (xs : List (List ℚ)) :
    List.intercalate sep (x :: xs) =
      x ++ (xs.map (fun s => sep ++ s)).flatten := by
  induction xs generalizing x with
  | nil => simp [List.intercalate]
  | cons y ys ih =>
    have h1 : List.intercalate sep (x :: y :: ys) =
        x ++ sep ++ List.intercalate sep (y :: ys) := by
      simp [List.intercalate, List.intersperse]
    rw [h1, ih y]
    simp [List.append_assoc]

theorem gap_flatten_length (gap : List ℚ) (rest : List (List ℚ)) :
    ((rest.map (fun seg => gap ++ seg)).flatten).length =
      rest.length * gap.length + (rest.map List.length).sum := by
  induction rest with
  | nil => simp
  | cons r rs ih =>
    simp only [List.map_cons, List.flatten_cons, List.length_append,
      List.length_cons, List.sum_cons, ih]
    ring

/-- C6: `concatenate_audio` returns `[]` for no segments, the lone
segment unchanged for one segment, and for two or more segments the
segments in order separated by all-zero gaps of `gapSamples` samples,
with total length the sum of the segment lengths plus `(n-1)` gaps. -/
theorem concatenate_audio_spec (gapMs sampleRate : Nat) :
    (concatenate_audio [] gapMs sampleRate = []) ∧
    (∀ s, concatenate_audio [s] gapMs sampleRate = s) ∧
    (∀ segments, 2 ≤ segments.length →
      concatenate_audio segments gapMs sampleRate =
        List.intercalate (List.replicate (gapSamples gapMs sampleRate) 0)
          segments ∧
      (concatenate_audio segments gapMs sampleRate).length =
        (segments.map List.length).sum +
          (segments.length - 1) * gapSamples gapMs sampleRate) := by
  refine ⟨rfl, fun s => rfl, ?_⟩
  intro segments hlen
  obtain ⟨s, r, rs, rfl⟩ : ∃ s r rs, segments = s :: r :: rs := by
    cases segments with
    | nil => exfalso; simp at hlen
    | cons s tail =>
      cases tail with
      | nil => exfalso; simp at hlen
      | cons r rs => exact ⟨s, r, rs, rfl⟩
  have hfold : concatenate_audio (s :: r :: rs) gapMs sampleRate =
      s ++ ((r :: rs).map
        (fun seg => List.replicate (gapSamples gapMs sampleRate) 0 ++ seg)).flatten := by
    show (r :: rs).foldl _ s = _
    exact foldl_gap_eq _ (r :: rs) s
  constructor
  · rw [hfold, intercalate_eq_flatten]
  · rw [hfold, List.length_append, gap_flatten_length]
    simp only [List.length_replicate, List.map_cons, List.sum_cons,
      List.length_cons]
    have h2 : rs.length + 1 + 1 - 1 = rs.length + 1 := by omega
    rw [h2]
    ring

/-- C6 witness: two one-sample segments with a two-sample gap give four
samples. -/
theorem concatenate_audio_spec_witness :
    (concatenate_audio [[1], [2]] 1000 2).length = 4 := by
  have h := ((concatenate_audio_spec 1000 2).2.2 [[1], [2]] (by simp)).2
  rw [h]
  norm_num [gapSamples]

/-! ### C9: `apply_fade` -/

theorem linspace_length (a b : ℚ) (n : Nat) : (linspace a b n).length = n := by
  unfold linspace
  split_ifs with h1 h2
  · simp [h1]
  · simp [h2]
  · rw [List.length_map, List.length_range]

theorem fadeInApply_length (l : List ℚ) (n : Nat) :
    (fadeInApply l n).length = l.length := by
  unfold fadeInApply
  split_ifs with h
  · simp only [List.length_append, List.length_zipWith, linspace_length,
      List.length_take, List.length_drop]
    omega
  · rfl

theorem fadeOutApply_length (l : List ℚ) (n : Nat) :
    (fadeOutApply l n).length = l.length := by
  unfold fadeOutApply
  split_ifs with h
  · simp only [List.length_append, List.length_zipWith, linspace_length,
      List.length_take, List.length_drop]
    omega
  · rfl

/-- C9: `apply_fade` preserves the length of its input (the source also
operates on a copy, never mutating the caller's array — the model is
pure), and a fade of zero samples or of at least the audio length leaves
the samples unchanged. -/
theorem apply_fade_spec (audio : List ℚ)
    (fadeInMs fadeOutMs sampleRate : Nat) :
    (apply_fade audio fadeInMs fadeOutMs sampleRate).length = audio.length ∧
    ((fadeInMs * sampleRate / 1000 = 0 ∨
        audio.length ≤ fadeInMs * sampleRate / 1000) →
     (fadeOutMs * sampleRate / 1000 = 0 ∨
        audio.length ≤ fadeOutMs * sampleRate / 1000) →
     apply_fade audio fadeInMs fadeOutMs sampleRate = audio) := by
  constructor
  · unfold apply_fade
    split_ifs with he
    · rfl
    · rw [fadeOutApply_length, fadeInApply_length]
  · intro hfi hfo
    unfold apply_fade
    split_ifs with he
    · rfl
    · have h1 : fadeInApply audio (fadeInMs * sampleRate / 1000) = audio := by
        unfold fadeInApply
        rw [if_neg]
        rintro ⟨hpos, hlt⟩
        rcases hfi with h | h
        · omega
        · omega
      rw [h1]
      unfold fadeOutApply
      rw [if_neg]
      rintro ⟨hpos, hlt⟩
      rcases hfo with h | h
      · omega
      · omega

/-- C9 witness: zero-length fades leave a two-sample buffer unchanged. -/
theorem apply_fade_spec_witness :
    apply_fade [1, 1] 0 0 16000 = [1, 1] :=
  (apply_fade_spec [1, 1] 0 0 16000).2 (Or.inl rfl) (Or.inl rfl)

/-! ### C2: `find_answer` -/

theorem isPrefixOfSelf (l : List Char) : l.isPrefixOf l = true := by
  induction l with
  | nil => rfl
  | cons c rest ih => simp [List.isPrefixOf, ih]

theorem containsSub_self (l : List Char) : containsSub l l = true := by
  cases l with
  | nil => rfl
  | cons c rest =>
    show (List.isPrefixOf (c :: rest) (c :: rest) || containsSub (c :: rest) rest) = true
    rw [isPrefixOfSelf]
    rfl

theorem findPartialMatch_none_iff (db : List (List Char × List Char))
    (q : List Char) :
    findPartialMatch db q = none ↔
      ∀ k a, (k, a) ∈ db →
        containsSub q k = false ∧ containsSub k q = false := by
  induction db with
  | nil => simp [findPartialMatch]
  | cons p rest ih =>
    obtain ⟨k0, a0⟩ := p
    unfold findPartialMatch
    by_cases hc : (containsSub q k0 || containsSub k0 q) = true
    · rw [if_pos hc]
      constructor
      · intro h; exact absurd h (Option.some_ne_none a0)
      · intro hall
        exfalso
        have hboth := hall k0 a0 (List.mem_cons_self _ _)
        rw [hboth.1, hboth.2] at hc
        exact absurd hc (by decide)
    · rw [if_neg hc]
      rw [ih]
      have hsplit : containsSub q k0 = false ∧ containsSub k0 q = false := by
        constructor
        · cases h1 : containsSub q k0 with
          | false => rfl
          | true => exfalso; apply hc; rw [h1]; rfl
        · cases h2 : containsSub k0 q with
          | false => rfl
          | true => exfalso; apply hc; rw [h2, Bool.or_true]
      constructor
      · intro hall k a hmem
        rcases List.mem_cons.mp hmem with heq | hmem'
        · cases heq; exact hsplit
        · exact hall k a hmem'
      · intro hall k a hmem
        exact hall k a (List.mem_cons_of_mem _ hmem)

theorem findPartialMatch_some_mem (db : List (List Char × List Char))
    (q a : List Char) (h : findPartialMatch db q = some a) :
    ∃ k, (k, a) ∈ db ∧
      (containsSub q k = true ∨ containsSub k q = true) := by
  induction db with
  | nil => cases h
  | cons p rest ih =>
    obtain ⟨k0, a0⟩ := p
    unfold findPartialMatch at h
    by_cases hc : (containsSub q k0 || containsSub k0 q) = true
    · rw [if_pos hc] at h
      injection h with h'
      subst h'
      have hor : containsSub q k0 = true ∨ containsSub k0 q = true := by
        cases h1 : containsSub q k0 with
        | true => exact Or.inl rfl
        | false =>
          cases h2 : containsSub k0 q with
          | true => exact Or.inr rfl
          | false => rw [h1, h2] at hc; exact absurd hc (by decide)
      exact ⟨k0, List.mem_cons_self _ _, hor⟩
    · rw [if_neg hc] at h
      obtain ⟨k, hmem, hrel⟩ := ih h
      exact ⟨k, List.mem_cons_of_mem _ hmem, hrel⟩

theorem alistLookup_mem (db : List (List Char × List Char))
    (k v : List Char) (h : alistLookup db k = some v) : (k, v) ∈ db := by
  induction db with
  | nil => cases h
  | cons p rest ih =>
    obtain ⟨k0, v0⟩ := p
    unfold alistLookup at h
    by_cases hk : k = k0
    · rw [if_pos hk] at h
      injection h with h'
      rw [hk, h']
      exact List.mem_cons_self _ _
    · rw [if_neg hk] at h
      exact List.mem_cons_of_mem _ (ih h)

/-- C2: `find_answer` normalises the question (lowercase, strip, strip
trailing question marks) and returns the stored answer on an exact key
match; otherwise it returns the answer of a stored key related to the
normalised question by substring containment in either direction, and it
returns `None` exactly when no stored key is so related. -/
theorem find_answer_spec (q : List Char) :
    (∀ a, alistLookup qa_database (normalize_question q) = some a →
        find_answer q = some a) ∧
    (alistLookup qa_database (normalize_question q) = none →
      ∀ a, find_answer q = some a →
        ∃ k, (k, a) ∈ qa_database ∧
          (containsSub (normalize_question q) k = true ∨
           containsSub k (normalize_question q) = true)) ∧
    (find_answer q = none ↔
      ∀ k a, (k, a) ∈ qa_database →
        containsSub (normalize_question q) k = false ∧
        containsSub k (normalize_question q) = false) := by
  refine ⟨?_, ?_, ?_⟩
  · intro a h
    simp only [find_answer, h]
  · intro hnone a h
    simp only [find_answer, hnone] at h
    exact findPartialMatch_some_mem _ _ a h
  · cases hlook : alistLookup qa_database (normalize_question q) with
    | some a =>
      simp only [find_answer, hlook]
      constructor
      · intro h; exact absurd h (Option.some_ne_none a)
      · intro hall
        exfalso
        have hmem := alistLookup_mem _ _ _ hlook
        have hboth := hall _ _ hmem
        have hself := containsSub_self (normalize_question q)
        rw [hboth.1] at hself
        cases hself
    | none =>
      simp only [find_answer, hlook]
      exact findPartialMatch_none_iff qa_database (normalize_question q)

set_option maxRecDepth 100000 in
/-- C2 witness: an exact-match question is answered with its stored
answer. -/
theorem find_answer_spec_witness :
    find_answer "What is machine learning?".toList =
      some "Machine learning is a subset of artificial intelligence that enables computers to learn and make decisions from data without being explicitly programmed. It uses algorithms to identify patterns and make predictions.".toList := by
  apply (find_answer_spec "What is machine learning?".toList).1
  decide

/-! ### C3: `convert_text` -/

theorem saveStep_ok {E : Type} (save : List ℚ → Except E (List Char))
    (audio : List ℚ) (p : List Char)
    (h : saveStep save audio = Except.ok (some p)) :
    save audio = Except.ok p := by
  unfold saveStep at h
  cases hs : save audio with
  | error e => rw [hs] at h; cases h
  | ok path =>
    rw [hs] at h
    injection h with h'
    injection h' with h''
    rw [h'']

theorem convert_text_of_body_ok_none {E : Type}
    (synth : List Char → Except E (Option (List ℚ)))
    (save : List ℚ → Except E (List Char)) (sampleRate : Nat)
    (text : List Char)
    (h : convertTextBody synth save sampleRate text = Except.ok none) :
    convert_text synth save sampleRate text = none := by
  unfold convert_text
  split_ifs with hs
  · rfl
  · rw [h]

theorem convert_text_of_body_error {E : Type}
    (synth : List Char → Except E (Option (List ℚ)))
    (save : List ℚ → Except E (List Char)) (sampleRate : Nat)
    (text : List Char) (e : E)
    (h : convertTextBody synth save sampleRate text = Except.error e) :
    convert_text synth save sampleRate text = none := by
  unfold convert_text
  split_ifs with hs
  · rfl
  · rw [h]

/-- C3: `convert_text` never lets an exception escape: its result is an
`Option`, and it is `none` for empty or whitespace-only input, for input
failing validation, when chunking produces no chunks, when no chunk is
synthesized, and when any step of the body raises; it returns a path
only when the save step returned that path. -/
theorem convert_text_spec {E : Type}
    (synth : List Char → Except E (Option (List ℚ)))
    (save : List ℚ → Except E (List Char)) (sampleRate : Nat)
    (text : List Char) :
    ((stripWS text).isEmpty = true →
      convert_text synth save sampleRate text = none) ∧
    (validate_text text = false →
      convert_text synth save sampleRate text = none) ∧
    ((preprocess_for_tts text 500).isEmpty = true →
      convert_text synth save sampleRate text = none) ∧
    (synthesizeChunks synth (preprocess_for_tts text 500) = Except.ok [] →
      convert_text synth save sampleRate text = none) ∧
    (∀ e, convertTextBody synth save sampleRate text = Except.error e →
      convert_text synth save sampleRate text = none) ∧
    (∀ p, convert_text synth save sampleRate text = some p →
      ∃ audio, save audio = Except.ok p) := by
  refine ⟨?_, ?_, ?_, ?_, ?_, ?_⟩
  · intro h
    unfold convert_text
    rw [if_pos h]
  · intro hv
    apply convert_text_of_body_ok_none
    simp only [convertTextBody]
    rw [if_pos hv]
  · intro hchunks
    apply convert_text_of_body_ok_none
    simp only [convertTextBody]
    split_ifs with hv
    · rfl
    · rfl
  · intro hsyn
    apply convert_text_of_body_ok_none
    simp only [convertTextBody]
    split_ifs with hv hchunks
    · rfl
    · rfl
    · rw [hsyn]
  · intro e h
    exact convert_text_of_body_error synth save sampleRate text e h
  · intro p hp
    have hbody : convertTextBody synth save sampleRate text =
        Except.ok (some p) := by
      unfold convert_text at hp
      by_cases hs : (stripWS text).isEmpty = true
      · rw [if_pos hs] at hp; cases hp
      · rw [if_neg hs] at hp
        cases hb : convertTextBody synth save sampleRate text with
        | ok r =>
          rw [hb] at hp
          exact congrArg Except.ok hp

        | error e =>
          rw [hb] at hp
          exact Option.noConfusion hp
    simp only [convertTextBody] at hbody
    split_ifs at hbody with hv hchunks
    · exact Option.noConfusion (Except.ok.inj hbody)
    · exact Option.noConfusion (Except.ok.inj hbody)
    · cases hsyn : synthesizeChunks synth (preprocess_for_tts text 500) with
      | error e =>
        rw [hsyn] at hbody
        exact Except.noConfusion hbody
      | ok segs =>
        rw [hsyn] at hbody
        cases segs with
        | nil => exact Option.noConfusion (Except.ok.inj hbody)
        | cons s rest => exact ⟨_, saveStep_ok save _ p hbody⟩

/-- Synthesis oracle used by the C3 witness. -/
def synthWitness : List Char → Except Unit (Option (List ℚ)) :=
  fun _ => Except.ok (some [1])

/-- Save oracle used by the C3 witness. -/
def saveWitness : List ℚ → Except Unit (List Char) :=
  fun _ => Except.ok ['o']

/-- C3 witness: whitespace-only input yields `none`. -/
theorem convert_text_spec_witness :
    convert_text synthWitness saveWitness 16000 "   ".toList = none :=
  (convert_text_spec synthWitness saveWitness 16000 "   ".toList).1 (by decide)

/-! ### C1: chunk lengths in `preprocess_for_tts` -/

theorem chunkAux_length_or_mem (maxLength : Nat) (S : List (List Char)) :
    ∀ (sentences : List (List Char)) (current : List Char),
      (∀ s ∈ sentences, s ∈ S) →
      (current = [] ∨ current.length ≤ maxLength ∨ current ∈ S) →
      ∀ c ∈ chunkAux maxLength sentences current,
        c.length ≤ maxLength ∨ c ∈ S := by
  intro sentences
  induction sentences with
  | nil =>
    intro current hsent hcur c hc
    unfold chunkAux at hc
    split_ifs at hc with he
    · cases hc
    · rw [List.mem_singleton] at hc
      subst hc
      rcases hcur with h | h | h
      · exact absurd (by rw [h]; rfl) he
      · exact Or.inl h
      · exact Or.inr h
  | cons s rest ih =>
    intro current hsent hcur c hc
    have hsent' : ∀ t ∈ rest, t ∈ S :=
      fun t ht => hsent t (List.mem_cons_of_mem _ ht)
    have hsS : s ∈ S := hsent s (List.mem_cons_self _ _)
    unfold chunkAux at hc
    split_ifs at hc with hlen hemp
    · refine ih (stripWS (current ++ ' ' :: s)) hsent' ?_ c hc
      right; left
      calc (stripWS (current ++ ' ' :: s)).length
          ≤ (current ++ ' ' :: s).length := stripWS_length_le _
        _ ≤ maxLength := hlen
    · exact ih s hsent' (Or.inr (Or.inr hsS)) c hc
    · rcases List.mem_cons.mp hc with rfl | hc'
      · rcases hcur with h | h | h
        · exact absurd (by rw [h]; rfl) hemp
        · exact Or.inl h
        · exact Or.inr h
      · exact ih s hsent' (Or.inr (Or.inr hsS)) c hc'

/-- C1 counterexample: with the positive limit `max_length = 1`, the
input "hello" yields the chunk "hello" of length 5, exceeding the
limit. -/
theorem preprocess_chunk_length_counterexample :
    0 < 1 ∧ "hello".toList ∈ preprocess_for_tts "hello".toList 1 ∧
      ¬ ("hello".toList.length ≤ 1) := by
  refine ⟨Nat.one_pos, ?_, ?_⟩
  · decide
  · decide

/-- C1 (amended): for every positive `max_length`, every chunk returned
by `preprocess_for_tts` either has length at most `max_length` or is a
single sentence of the cleaned text (necessarily longer than
`max_length`). -/
theorem preprocess_chunk_length_amended (t : List Char) (maxLength : Nat)
    (hpos : 0 < maxLength) :
    ∀ c ∈ preprocess_for_tts t maxLength,
      c.length ≤ maxLength ∨ c ∈ segment_sentences (clean_text t) := by
  intro c hc
  unfold preprocess_for_tts chunkSentences at hc
  exact chunkAux_length_or_mem maxLength (segment_sentences (clean_text t))
    (segment_sentences (clean_text t)) [] (fun s hs => hs) (Or.inl rfl) c hc

/-- C1 witness: the over-long chunk "hello" is itself a sentence of the
cleaned text. -/
theorem preprocess_chunk_length_amended_witness :
    "hello".toList.length ≤ 1 ∨
      "hello".toList ∈ segment_sentences (clean_text "hello".toList) :=
  preprocess_chunk_length_amended "hello".toList 1 Nat.one_pos
    "hello".toList (by decide)

/-! ### C5: the chunking loop is a partition of the sentences -/

theorem joinSpace_ne_nil (g : List (List Char))
    (h : ∀ s ∈ g, s ≠ []) (hg : g ≠ []) : joinSpace g ≠ [] := by
  cases g with
  | nil => exact absurd rfl hg
  | cons s rest =>
    cases rest with
    | nil => exact h s (List.mem_cons_self _ _)
    | cons t r =>
      show s ++ ' ' :: joinSpace (t :: r) ≠ []
      simp

theorem joinSpace_stripped (g : List (List Char))
    (h : ∀ s ∈ g, stripWS s = s ∧ s ≠ []) :
    stripWS (joinSpace g) = joinSpace g := by
  induction g with
  | nil => rfl
  | cons s rest ih =>
    cases rest with
    | nil => exact (h s (List.mem_cons_self _ _)).1
    | cons t r =>
      show stripWS (s ++ ' ' :: joinSpace (t :: r)) =
        s ++ ' ' :: joinSpace (t :: r)
      have hs := h s (List.mem_cons_self _ _)
      have hrest : ∀ u ∈ t :: r, stripWS u = u ∧ u ≠ [] :=
        fun u hu => h u (List.mem_cons_of_mem _ hu)
      exact stripWS_append_space s (joinSpace (t :: r)) hs.1 hs.2 (ih hrest)
        (joinSpace_ne_nil (t :: r) (fun u hu => (hrest u hu).2) (by simp))

theorem joinSpace_append_single (g : List (List Char)) (s : List Char)
    (hg : g ≠ []) :
    joinSpace (g ++ [s]) = joinSpace g ++ ' ' :: s := by
  induction g with
  | nil => exact absurd rfl hg
  | cons x rest ih =>
    cases rest with
    | nil => rfl
    | cons y r =>
      show x ++ ' ' :: joinSpace ((y :: r) ++ [s]) =
        (x ++ ' ' :: joinSpace (y :: r)) ++ ' ' :: s
      rw [ih (by simp)]
      simp [List.append_assoc]

theorem segment_sentences_stripped (t : List Char) :
    ∀ s ∈ segment_sentences t, stripWS s = s ∧ s ≠ [] := by
  intro s hs
  unfold segment_sentences at hs
  rw [List.mem_filter] at hs
  obtain ⟨hmem, hne⟩ := hs
  rw [List.mem_map] at hmem
  obtain ⟨piece, _, rfl⟩ := hmem
  refine ⟨stripWS_idem piece, ?_⟩
  have hne' := of_decide_eq_true hne
  intro h
  exact hne' (by rw [h]; rfl)

theorem chunkAux_partition (maxLength : Nat) :
    ∀ (sentences g : List (List Char)),
      (∀ s ∈ sentences, stripWS s = s ∧ s ≠ []) →
      (∀ s ∈ g, stripWS s = s ∧ s ≠ []) →
      ∃ groups : List (List (List Char)),
        (∀ h ∈ groups, h ≠ []) ∧
        groups.flatten = g ++ sentences ∧
        chunkAux maxLength sentences (joinSpace g) = groups.map joinSpace := by
  intro sentences
  induction sentences with
  | nil =>
    intro g hsent hg
    by_cases hge : g = []
    · subst hge
      exact ⟨[], by simp, by simp, rfl⟩
    · have hne : joinSpace g ≠ [] :=
        joinSpace_ne_nil g (fun u hu => (hg u hu).2) hge
      refine ⟨[g], ?_, by simp, ?_⟩
      · intro h hh
        rw [List.mem_singleton] at hh
        subst hh
        exact hge
      · unfold chunkAux
        rw [if_neg (by simpa [List.isEmpty_iff] using hne)]
        rfl
  | cons s rest ih =>
    intro g hsent hg
    have hs := hsent s (List.mem_cons_self _ _)
    have hrest : ∀ u ∈ rest, stripWS u = u ∧ u ≠ [] :=
      fun u hu => hsent u (List.mem_cons_of_mem _ hu)
    unfold chunkAux
    by_cases hlen : (joinSpace g ++ ' ' :: s).length ≤ maxLength
    · rw [if_pos hlen]
      have hkey : stripWS (joinSpace g ++ ' ' :: s) = joinSpace (g ++ [s]) := by
        by_cases hge : g = []
        · subst hge
          show stripWS (' ' :: s) = joinSpace [s]
          rw [stripWS_cons_space, hs.1]
          rfl
        · have hjs : stripWS (joinSpace g) = joinSpace g := joinSpace_stripped g hg
          have hjne : joinSpace g ≠ [] :=
            joinSpace_ne_nil g (fun u hu => (hg u hu).2) hge
          rw [stripWS_append_space (joinSpace g) s hjs hjne hs.1 hs.2]
          exact (joinSpace_append_single g s hge).symm
      rw [hkey]
      obtain ⟨groups, h1, h2, h3⟩ := ih (g ++ [s]) hrest (by
        intro u hu
        rcases List.mem_append.mp hu with h | h
        · exact hg u h
        · rw [List.mem_singleton] at h; subst h; exact hs)
      refine ⟨groups, h1, ?_, h3⟩
      rw [h2]
      simp
    · rw [if_neg hlen]
      have hsingle : ∀ u ∈ [s], stripWS u = u ∧ u ≠ [] := by
        intro u hu
        rw [List.mem_singleton] at hu
        subst hu
        exact hs
      by_cases hge : g = []
      · subst hge
        rw [if_pos (show (joinSpace []).isEmpty = true from rfl)]
        obtain ⟨groups, h1, h2, h3⟩ := ih [s] hrest hsingle
        refine ⟨groups, h1, ?_, h3⟩
        rw [h2]
        rfl
      · rw [if_neg (by
          simpa [List.isEmpty_iff] using
            joinSpace_ne_nil g (fun u hu => (hg u hu).2) hge)]
        obtain ⟨groups, h1, h2, h3⟩ := ih [s] hrest hsingle
        refine ⟨g :: groups, ?_, ?_, ?_⟩
        · intro h hh
          rcases List.mem_cons.mp hh with rfl | hh'
          · exact hge
          · exact h1 h hh'
        · rw [List.flatten_cons, h2]
          rfl
        · rw [List.map_cons, ← h3]
          rfl

/-- C5: `preprocess_for_tts` scans sentences greedily (a sentence joins
the current chunk exactly when the joined length stays within the limit,
otherwise it starts a new chunk), so the chunks are the space-joins of a
partition of the sentence list of the cleaned text into consecutive
nonempty groups: every sentence appears exactly once and in order. -/
theorem preprocess_partition (t : List Char) (maxLength : Nat) :
    ∃ groups : List (List (List Char)),
      (∀ g ∈ groups, g ≠ []) ∧
      groups.flatten = segment_sentences (clean_text t) ∧
      preprocess_for_tts t maxLength = groups.map joinSpace := by
  obtain ⟨groups, h1, h2, h3⟩ :=
    chunkAux_partition maxLength (segment_sentences (clean_text t)) []
      (segment_sentences_stripped (clean_text t)) (by intro u hu; cases hu)
  refine ⟨groups, h1, by simpa using h2, ?_⟩
  unfold preprocess_for_tts chunkSentences
  exact h3

/-! ### C7: `clean_text` — character-tracking lemmas -/

theorem mem_squeeze : ∀ (l : List Char), ∀ c ∈ squeeze l, c ∈ l ∨ c = ' '
  | [] => by intro c h; cases h
  | [a] => by
    intro c h
    simp only [squeeze] at h
    split_ifs at h with hw
    · rw [List.mem_singleton] at h
      subst h
      exact Or.inr rfl
    · rw [List.mem_singleton] at h
      subst h
      exact Or.inl (List.mem_cons_self _ _)
  | a :: b :: rest => by
    intro c h
    simp only [squeeze] at h
    split_ifs at h with h1 h2
    · rcases mem_squeeze (b :: rest) c h with h' | h'
      · exact Or.inl (List.mem_cons_of_mem _ h')
      · exact Or.inr h'
    · rcases List.mem_cons.mp h with rfl | h'
      · exact Or.inr rfl
      · rcases mem_squeeze (b :: rest) c h' with h'' | h''
        · exact Or.inl (List.mem_cons_of_mem _ h'')
        · exact Or.inr h''
    · rcases List.mem_cons.mp h with rfl | h'
      · exact Or.inl (List.mem_cons_self _ _)
      · rcases mem_squeeze (b :: rest) c h' with h'' | h''
        · exact Or.inl (List.mem_cons_of_mem _ h'')
        · exact Or.inr h''

theorem mem_replaceAllFuel (pat rep : List Char) (fuel : Nat) :
    ∀ (s : List Char) (c : Char),
      c ∈ replaceAllFuel pat rep fuel s → c ∈ s ∨ c ∈ rep := by
  induction fuel with
  | zero =>
    intro s c h
    cases s with
    | nil => cases h
    | cons a s' => exact Or.inl h
  | succ n ih =>
    intro s c h
    cases s with
    | nil => cases h
    | cons a cs =>
      simp only [replaceAllFuel] at h
      split_ifs at h with hp
      · rcases List.mem_append.mp h with h' | h'
        · exact Or.inr h'
        · rcases ih _ c h' with h'' | h''
          · exact Or.inl (List.mem_of_mem_drop h'')
          · exact Or.inr h''
      · rcases List.mem_cons.mp h with rfl | h'
        · exact Or.inl (List.mem_cons_self _ _)
        · rcases ih cs c h' with h'' | h''
          · exact Or.inl (List.mem_cons_of_mem _ h'')
          · exact Or.inr h''

theorem foldl_replaceAll_mem (table : List (List Char × List Char)) :
    ∀ (s : List Char) (c : Char),
      c ∈ table.foldl (fun acc pr => replaceAll pr.1 pr.2 acc) s →
      c ∈ s ∨ ∃ pr ∈ table, c ∈ pr.2 := by
  induction table with
  | nil => intro s c h; exact Or.inl h
  | cons pr rest ih =>
    intro s c h
    simp only [List.foldl_cons] at h
    rcases ih _ c h with h' | hex
    · rcases mem_replaceAllFuel pr.1 pr.2 s.length s c h' with h'' | h''
      · exact Or.inl h''
      · exact Or.inr ⟨pr, List.mem_cons_self _ _, h''⟩
    · obtain ⟨pr', hmem, hc⟩ := hex
      exact Or.inr ⟨pr', List.mem_cons_of_mem _ hmem, hc⟩

theorem mem_splitWSAux : ∀ (l acc piece : List Char),
    piece ∈ splitWSAux l acc → ∀ c ∈ piece, c ∈ l ∨ c ∈ acc := by
  intro l
  induction l with
  | nil =>
    intro acc piece hp c hc
    unfold splitWSAux at hp
    split_ifs at hp with he
    · cases hp
    · rw [List.mem_singleton] at hp
      subst hp
      rw [List.mem_reverse] at hc
      exact Or.inr hc
  | cons a l' ih =>
    intro acc piece hp c hc
    unfold splitWSAux at hp
    split_ifs at hp with hw he
    · rcases ih [] piece hp c hc with h | h
      · exact Or.inl (List.mem_cons_of_mem _ h)
      · cases h
    · rcases List.mem_cons.mp hp with rfl | hp'
      · rw [List.mem_reverse] at hc
        exact Or.inr hc
      · rcases ih [] piece hp' c hc with h | h
        · exact Or.inl (List.mem_cons_of_mem _ h)
        · cases h
    · rcases ih (a :: acc) piece hp c hc with h | h
      · exact Or.inl (List.mem_cons_of_mem _ h)
      · rcases List.mem_cons.mp h with rfl | h'
        · exact Or.inl (List.mem_cons_self _ _)
        · exact Or.inr h'

theorem mem_of_mem_takeWhileCh (p : Char → Bool) (l : List Char) (c : Char)
    (h : c ∈ l.takeWhile p) : c ∈ l := by
  have hmem : c ∈ l.takeWhile p ++ l.dropWhile p :=
    List.mem_append.mpr (Or.inl h)
  rwa [List.takeWhile_append_dropWhile] at hmem

theorem mem_expandWord (w : List Char) (c : Char) (h : c ∈ expandWord w) :
    c ∈ w ∨ ∃ pr ∈ numbersTable, c ∈ pr.2 := by
  simp only [expandWord] at h
  cases hlook : alistLookup numbersTable (stripSet isPunctCh w) with
  | none => rw [hlook] at h; exact Or.inl h
  | some num =>
    rw [hlook] at h
    rcases List.mem_append.mp h with h' | h'
    · rcases List.mem_append.mp h' with h'' | h''
      · exact Or.inl (mem_of_mem_takeWhileCh isPunctCh w c h'')
      · exact Or.inr ⟨_, alistLookup_mem _ _ _ hlook, h''⟩
    · rw [List.mem_reverse] at h'
      have := mem_of_mem_takeWhileCh isPunctCh w.reverse c h'
      rw [List.mem_reverse] at this
      exact Or.inl this

theorem mem_joinSpace : ∀ (l : List (List Char)) (c : Char),
    c ∈ joinSpace l → (∃ p ∈ l, c ∈ p) ∨ c = ' '
  | [] => by intro c h; cases h
  | [s] => by
    intro c h
    exact Or.inl ⟨s, List.mem_cons_self _ _, h⟩
  | s :: t :: r => by
    intro c h
    have h' : c ∈ s ++ ' ' :: joinSpace (t :: r) := h
    rcases List.mem_append.mp h' with h1 | h1
    · exact Or.inl ⟨s, List.mem_cons_self _ _, h1⟩
    · rcases List.mem_cons.mp h1 with rfl | h2
      · exact Or.inr rfl
      · rcases mem_joinSpace (t :: r) c h2 with ⟨p, hp, hc⟩ | h3
        · exact Or.inl ⟨p, List.mem_cons_of_mem _ hp, hc⟩
        · exact Or.inr h3

theorem mem_handle_special (t : List Char) (c : Char)
    (h : c ∈ handle_special_characters t) :
    c ∈ t ∨ c = ' ' ∨ ∃ pr ∈ specialReplacements, c ∈ pr.2 := by
  unfold handle_special_characters at h
  rw [List.mem_map] at h
  obtain ⟨a, ha, rfl⟩ := h
  by_cases hk : (isWordCh a || isWS a || isKeptPunct a) = true
  · rw [if_pos hk]
    rcases foldl_replaceAll_mem specialReplacements t a ha with h' | h'
    · exact Or.inl h'
    · exact Or.inr (Or.inr h')
  · rw [if_neg hk]
    exact Or.inr (Or.inl rfl)

theorem specials_no_upper :
    ∀ pr ∈ specialReplacements, ∀ c ∈ pr.2, isUpperCh c = false := by decide

theorem abbreviations_no_upper :
    ∀ pr ∈ abbreviations, ∀ c ∈ pr.2, isUpperCh c = false := by decide

theorem numbers_no_upper :
    ∀ pr ∈ numbersTable, ∀ c ∈ pr.2, isUpperCh c = false := by decide

theorem isUpperCh_lowerChar (c : Char) : isUpperCh (lowerChar c) = false := by
  unfold lowerChar
  split_ifs with h
  · rw [Bool.and_eq_true, decide_eq_true_eq, decide_eq_true_eq] at h
    have hval : (c.toNat + 32).isValidChar := Or.inl (by omega)
    have hofNat : ∀ n : Nat, n.isValidChar → (Char.ofNat n).toNat = n := by
      intro n hn
      simp [Char.ofNat, hn, Char.ofNatAux, Char.toNat, UInt32.toNat,
        BitVec.toNat_ofNatLt]
    unfold isUpperCh
    rw [hofNat (c.toNat + 32) hval]
    have h90 : ¬ (c.toNat + 32 ≤ 90) := by omega
    rw [decide_eq_false h90, Bool.and_false]
  · exact Bool.eq_false_iff.mpr h

theorem clean_text_chars (t : List Char) (c : Char) (hc : c ∈ clean_text t) :
    isUpperCh c = false := by
  unfold clean_text at hc
  split_ifs at hc with ht
  · cases hc
  · have h1 := mem_of_mem_stripSet isWS _ c hc
    rcases mem_squeeze _ c h1 with h2 | hsp
    · rcases mem_handle_special _ c h2 with h3 | hsp | htab
      · unfold expandNumbers at h3
        rcases mem_joinSpace _ c h3 with ⟨p, hp, hcp⟩ | hsp
        · rw [List.mem_map] at hp
          obtain ⟨w, hw, rfl⟩ := hp
          rcases mem_expandWord w c hcp with h4 | htab
          · have h5 := mem_splitWSAux _ [] w hw c h4
            rcases h5 with h5 | h5
            · unfold expandAbbreviations at h5
              rcases foldl_replaceAll_mem _ _ c h5 with h6 | htab
              · rcases mem_squeeze _ c h6 with h7 | hsp
                · rw [List.mem_map] at h7
                  obtain ⟨a, _, rfl⟩ := h7
                  exact isUpperCh_lowerChar a
                · subst hsp; decide
              · obtain ⟨pr, hmem, hc'⟩ := htab
                exact abbreviations_no_upper pr hmem c hc'
            · cases h5
          · obtain ⟨pr, hmem, hc'⟩ := htab
            exact numbers_no_upper pr hmem c hc'
        · subst hsp; decide
      · subst hsp; decide
      · obtain ⟨pr, hmem, hc'⟩ := htab
        exact specials_no_upper pr hmem c hc'
    · subst hsp; decide

/-! ### C7: `clean_text` — no two consecutive whitespace characters -/

theorem squeeze_head_not_ws (c : Char) (rest : List Char)
    (hc : isWS c = false) : ∃ tl, squeeze (c :: rest) = c :: tl := by
  cases rest with
  | nil => exact ⟨[], by simp [squeeze, hc]⟩
  | cons d r =>
    refine ⟨squeeze (d :: r), ?_⟩
    simp [squeeze, hc]

theorem chain_squeeze : ∀ l : List Char,
    List.Chain' (fun a b => ¬(isWS a = true ∧ isWS b = true)) (squeeze l)
  | [] => by simp [squeeze]
  | [c] => by simp [squeeze]
  | c :: d :: rest => by
    by_cases h : (isWS c && isWS d) = true
    · have hstep : squeeze (c :: d :: rest) = squeeze (d :: rest) := by
        simp only [squeeze]
        rw [if_pos h]
      rw [hstep]
      exact chain_squeeze (d :: rest)
    · have hstep : squeeze (c :: d :: rest) =
          (if isWS c = true then ' ' else c) :: squeeze (d :: rest) := by
        simp only [squeeze]
        rw [if_neg h]
      rw [hstep, List.chain'_cons']
      refine ⟨?_, chain_squeeze (d :: rest)⟩
      intro y hy
      by_cases hwc : isWS c = true
      · have hwd : isWS d = false := by
          cases hdd : isWS d with
          | false => rfl
          | true => exfalso; apply h; rw [hwc, hdd]; rfl
        obtain ⟨tl, htl⟩ := squeeze_head_not_ws d rest hwd
        rw [htl] at hy
        simp only [List.head?_cons, Option.mem_def, Option.some.injEq] at hy
        subst hy
        intro hcontra
        rw [hwd] at hcontra
        exact Bool.noConfusion hcontra.2
      · intro hcontra
        apply hwc
        rw [if_neg hwc] at hcontra
        exact hcontra.1

theorem chain_of_append_middle {R : Char → Char → Prop}
    (s mid t : List Char) (h : List.Chain' R (s ++ (mid ++ t))) :
    List.Chain' R mid := by
  obtain ⟨_, h2, _⟩ := List.chain'_append.mp h
  exact (List.chain'_append.mp h2).1

theorem chain_stripWS {R : Char → Char → Prop} (l : List Char)
    (h : List.Chain' R l) : List.Chain' R (stripWS l) := by
  have hd := stripSet_decomp isWS l
  rw [List.append_assoc] at hd
  rw [hd] at h
  exact chain_of_append_middle _ _ _ h

/-- C7: `clean_text` of a non-empty text is the composition of
lowercasing, whitespace collapse, abbreviation replacement, number-word
expansion with punctuation preserved, special-character handling, and a
final collapse-and-strip; the result contains no uppercase letter, no
two consecutive whitespace characters, and is stripped. -/
theorem clean_text_spec (t : List Char) (h : t ≠ []) :
    clean_text t =
      stripWS (squeeze (handle_special_characters
        (expandNumbers (expandAbbreviations (squeeze (t.map lowerChar)))))) ∧
    (∀ c ∈ clean_text t, isUpperCh c = false) ∧
    List.Chain' (fun a b => ¬(isWS a = true ∧ isWS b = true)) (clean_text t) ∧
    stripWS (clean_text t) = clean_text t := by
  have hstage : clean_text t =
      stripWS (squeeze (handle_special_characters
        (expandNumbers (expandAbbreviations (squeeze (t.map lowerChar)))))) := by
    unfold clean_text
    rw [if_neg h]
  have hchain : List.Chain' (fun a b => ¬(isWS a = true ∧ isWS b = true))
      (clean_text t) := by
    rw [hstage]
    generalize handle_special_characters
      (expandNumbers (expandAbbreviations (squeeze (t.map lowerChar)))) = l
    exact chain_stripWS _ (chain_squeeze l)
  have hstrip : stripWS (clean_text t) = clean_text t := by
    rw [hstage]
    generalize squeeze (handle_special_characters
      (expandNumbers (expandAbbreviations (squeeze (t.map lowerChar))))) = l
    exact stripWS_idem l
  exact ⟨hstage, fun c hc => clean_text_chars t c hc, hchain, hstrip⟩

/-- C7 witness: the non-empty text "Hi! 2 cats" satisfies all parts of
the cleaning specification. -/
theorem clean_text_spec_witness :
    clean_text "Hi! 2 cats".toList =
      stripWS (squeeze (handle_special_characters (expandNumbers
        (expandAbbreviations (squeeze ("Hi! 2 cats".toList.map lowerChar)))))) ∧
    (∀ c ∈ clean_text "Hi! 2 cats".toList, isUpperCh c = false) ∧
    List.Chain' (fun a b => ¬(isWS a = true ∧ isWS b = true))
      (clean_text "Hi! 2 cats".toList) ∧
    stripWS (clean_text "Hi! 2 cats".toList) =
      clean_text "Hi! 2 cats".toList :=
  clean_text_spec "Hi! 2 cats".toList (by decide)

end TextToAudio
